import Mathlib

/-
Verification of the cross-file call-graph and taint-analysis engine
(src/taintanalysis.py and src/callgraph.py).

The Python AST fragment exercised by the analyzers is embedded shallowly:
  - expressions: Name, Attribute, Call (with positional args and keyword
    arguments), Constant, Subscript, BinOp, List, Dict;
  - statements: Assign, expression statements, FunctionDef, Return.
Python dictionaries are embedded as insertion-ordered association lists
(`setKey` overwrites in place, appends fresh keys at the end, exactly like
CPython dict assignment), Python sets of strings as duplicate-free lists
(`addStr` appends an element only when absent, like `set.add`).
Python exceptions (e.g. the TypeError raised when `get_name` returns None
and `visit_Call` evaluates `name[::-1]`) are embedded as `Option`: a crash
of the traversal is `none`.

`ast.NodeVisitor` dispatch is embedded by a pair of mutual traversal
functions, `visitStmt`/`visitExpr`: each mirrors the corresponding
`visit_*` method of `TaintAnalyzer` (the rule block first, then
`generic_visit`, which recurses into the children in field order).  The
`node.parent` back-pointers attached by `TaintAnalyzer.analyze` are
embedded by the `ctx` argument of `visitExpr`: it is `some targets`
exactly when the expression being visited is the direct `value` child of
an `Assign` node with those targets, and `none` otherwise (the only uses
of `node.parent` in the source are `isinstance(node.parent, ast.Assign)`
followed by `node.parent.targets`).
-/

namespace Py

/-- Constant literals (`ast.Constant`).  Only string and integer constants
occur in the analyzed fragment; `isinstance(key, ast.Str)` holds exactly
for the string case. -/
inductive CVal where
  | str (s : String)
  | intV (n : Int)

/-- Python expressions, as consumed by the analyzers.  `call` carries its
source line (`node.lineno`), the only location the analyzers read.
Keyword arguments are (name, value) pairs; the taint analyzer never reads
them and the call-graph builder only traverses their values. -/
inductive Expr where
  | name (id : String)
  | attributeE (value : Expr) (attr : String)
  | call (func : Expr) (args : List Expr) (keywords : List (String × Expr)) (lineno : Nat)
  | constant (value : CVal)
  | subscript (value : Expr) (slice : Expr)
  | binOp (left : Expr) (right : Expr)
  | listE (elts : List Expr)
  | dictE (pairs : List (Expr × Expr))

/-- Python statements: assignments, expression statements, function
definitions and `return` (whose value may be absent). -/
inductive Stmt where
  | assign (targets : List Expr) (value : Expr)
  | exprStmt (value : Expr)
  | functionDef (fname : String) (body : List Stmt)
  | ret (value : Option Expr)

/-- A parsed file: the list of top-level statements of the `ast.Module`. -/
abbrev Module := List Stmt

/-- Association-list lookup, the embedding of Python `d[k]` / `k in d`. -/
def lookupKey {β : Type} (k : String) : List (String × β) → Option β
  | [] => none
  | (k2, v) :: rest => if k2 = k then some v else lookupKey k rest

/-- Association-list update, the embedding of Python `d[k] = v`: overwrite
in place when the key exists, append at the end otherwise (CPython dicts
preserve insertion order). -/
def setKey {β : Type} (k : String) (v : β) : List (String × β) → List (String × β)
  | [] => [(k, v)]
  | (k2, v2) :: rest => if k2 = k then (k, v) :: rest else (k2, v2) :: setKey k v rest

/-- The keys of an association list, in order. -/
def keysOf {β : Type} (l : List (String × β)) : List String := l.map Prod.fst

/-- The embedding of `set.add` for string sets kept as duplicate-free
lists: append the element when it is not already present. -/
def addStr (v : String) (l : List String) : List String :=
  if v ∈ l then l else l ++ [v]

/-- `get_name(node, name)` from src/taintanalysis.py: accumulate attribute
names walking inward; a `Name` base closes the chain.  The Python function
has no branch for any other base, so it falls off the end and returns
`None` — embedded as `none`. -/
def get_name : Expr → List String → Option (List String)
  | .name id, acc => some (acc ++ [id])
  | .attributeE value attr, acc => get_name value (acc ++ [attr])
  | _, _ => none

/-- `".".join(name[::-1])` applied to the result of `get_name`. -/
def dotted (nm : List String) : String := String.intercalate "." nm.reverse

/-- `TaintAnalyzer.taint_sources`. -/
def taint_sources : List String := ["input", "os.environ.get"]

/-- `TaintAnalyzer.sensitive_sinks`. -/
def sensitive_sinks : List String := ["eval", "exec", "os.system", "subprocess.run"]

/-- The exact issue string appended by `TaintAnalyzer.visit_Call`:
`f"Tainted data passed to sensitive function '{callname}' at line {node.lineno}"`. -/
def issueString (callname : String) (lineno : Nat) : String :=
  "Tainted data passed to sensitive function \x27" ++ callname ++ "\x27 at line " ++ toString lineno

/-- The mutable state of one `TaintAnalyzer` instance. -/
structure AState where
  tainted_vars : List String
  tainted_collections : List (String × List String)
  tainted_functions : List String
  issues : List String
  deriving DecidableEq

/-- The state of a freshly constructed `TaintAnalyzer`. -/
def initState : AState := ⟨[], [], [], []⟩

/-- Add one variable to `tainted_vars` (`self.tainted_vars.add(...)`). -/
def addVar (v : String) (s : AState) : AState :=
  { s with tainted_vars := addStr v s.tainted_vars }

/-- Mark one function as taint-propagating
(`self.tainted_functions[name] = True`; the dict is used as a set). -/
def addFun (f : String) (s : AState) : AState :=
  { s with tainted_functions := addStr f s.tainted_functions }

/-- The loop `for target in node.parent.targets: if isinstance(target,
ast.Name): self.tainted_vars.add(target.id)` shared by the source rule and
the function-propagation rule of `visit_Call`. -/
def addTargets (s : AState) : List Expr → AState
  | [] => s
  | .name id :: rest => addTargets (addVar id s) rest
  | _ :: rest => addTargets s rest

/-- `TaintAnalyzer._is_tainted`.  A `Name` is tainted iff tracked; a
`Subscript` is tainted iff its base is a `Name` whose identifier is a key
of `tainted_collections` (mere key membership — the recorded element set
is not inspected); a `Call` is tainted iff its resolved dotted name is a
key of `tainted_functions` (resolution may crash like in `visit_Call`);
a `BinOp` is tainted iff either side is (Python `or`, short-circuit);
everything else is untainted. -/
def _is_tainted (s : AState) : Expr → Option Bool
  | .name id => some (id ∈ s.tainted_vars)
  | .subscript value _ =>
      match value with
      | .name id => some ((lookupKey id s.tainted_collections).isSome)
      | _ => some false
  | .call func _ _ _ => do
      let nm ← get_name func []
      some (dotted nm ∈ s.tainted_functions)
  | .binOp left right => do
      let bl ← _is_tainted s left
      if bl then some true else _is_tainted s right
  | _ => some false

/-- `_is_tainted` applied to an optional node (`Return.value` may be
`None`; no `isinstance` branch matches `None`, so the result is `False`). -/
def _is_taintedOpt (s : AState) : Option Expr → Option Bool
  | some e => _is_tainted s e
  | none => some false

/-- `key.s if isinstance(key, ast.Str) else key.id` in
`_extract_tainted_elements`: a string constant yields its text, a `Name`
yields its identifier, any other key raises `AttributeError` (= `none`). -/
def keyString : Expr → Option String
  | .constant (.str s) => some s
  | .name id => some id
  | _ => none

/-- The `ast.Dict` half of `_extract_tainted_elements`: collect the key of
every entry whose value is a tainted `Name`. -/
def extractDict (s : AState) : List (Expr × Expr) → List String → Option (List String)
  | [], acc => some acc
  | (k, v) :: rest, acc =>
      match v with
      | .name id =>
          if id ∈ s.tainted_vars then do
            let ks ← keyString k
            extractDict s rest (addStr ks acc)
          else extractDict s rest acc
      | _ => extractDict s rest acc

/-- The `ast.List` half of `_extract_tainted_elements`: collect every
element that is a tainted `Name`. -/
def extractList (s : AState) : List Expr → List String → List String
  | [], acc => acc
  | .name id :: rest, acc =>
      if id ∈ s.tainted_vars then extractList s rest (addStr id acc) else extractList s rest acc
  | _ :: rest, acc => extractList s rest acc

/-- `TaintAnalyzer._extract_tainted_elements`. -/
def _extract_tainted_elements (s : AState) : Expr → Option (List String)
  | .listE elts => some (extractList s elts [])
  | .dictE pairs => extractDict s pairs []
  | _ => some []

/-- The sink loop of `visit_Call`: `for arg in node.args: if
self._is_tainted(arg): self.issues.append(...)`.  Only positional
arguments are inspected; `node.keywords` is never read. -/
def sinkCheck (callname : String) (lineno : Nat) (s : AState) : List Expr → Option AState
  | [] => some s
  | arg :: rest => do
      let b ← _is_tainted s arg
      let s1 := if b then { s with issues := s.issues ++ [issueString callname lineno] } else s
      sinkCheck callname lineno s1 rest

/-- The source rule of `visit_Call`: if the resolved name is a taint
source and the parent is an `Assign`, taint every `Name` target. -/
def sourceRule (callname : String) (ctx : Option (List Expr)) (s : AState) : AState :=
  if callname ∈ taint_sources then
    match ctx with
    | some targets => addTargets s targets
    | none => s
  else s

/-- The sink rule of `visit_Call`: if the resolved name is a sensitive
sink, run the per-argument taint test over the positional arguments. -/
def sinkRule (callname : String) (lineno : Nat) (args : List Expr) (s : AState) : Option AState :=
  if callname ∈ sensitive_sinks then sinkCheck callname lineno s args else some s

/-- The function-propagation rule of `visit_Call`: if the resolved name is
a known taint-propagating function and the parent is an `Assign`, taint
every `Name` target. -/
def propagationRule (callname : String) (ctx : Option (List Expr)) (s : AState) : AState :=
  if callname ∈ s.tainted_functions then
    match ctx with
    | some targets => addTargets s targets
    | none => s
  else s

/-- The rule block of `TaintAnalyzer.visit_Call` (everything before its
`generic_visit`): resolve the callee name (crashing like the source when
`get_name` returns `None`), then the source rule, the sink rule and the
function-propagation rule, in source order.  `ctx` is `some targets` iff
`node.parent` is an `Assign` with those targets. -/
def visit_Call_rules (ctx : Option (List Expr)) (s : AState) (func : Expr)
    (args : List Expr) (lineno : Nat) : Option AState := do
  let nm ← get_name func []
  let callname := dotted nm
  let s2 ← sinkRule callname lineno args (sourceRule callname ctx s)
  some (propagationRule callname ctx s2)

/-- The collection-tracking loop of `visit_Assign`: for every `Name`
target, record the tainted elements of the right-hand `List`/`Dict`
literal (overwriting any previous entry for that variable). -/
def assignCollections (value : Expr) (s : AState) : List Expr → Option AState
  | [] => some s
  | .name id :: rest => do
      let els ← _extract_tainted_elements s value
      assignCollections value
        { s with tainted_collections := setKey id els s.tainted_collections } rest
  | _ :: rest => assignCollections value s rest

/-- The variable-to-variable propagation rule of `visit_Assign`: when the
right-hand side is a `Name` already tainted, taint every `Name` target. -/
def assignNameRule (s : AState) (targets : List Expr) (value : Expr) : AState :=
  match value with
  | .name id => if id ∈ s.tainted_vars then addTargets s targets else s
  | _ => s

/-- The rule block of `TaintAnalyzer.visit_Assign` (before its
`generic_visit`): variable-to-variable propagation when the value is a
tainted `Name`, and collection tracking when the value is a `List`/`Dict`
literal. -/
def visit_Assign_rules (s : AState) (targets : List Expr) (value : Expr) : Option AState :=
  match value with
  | .listE _ => assignCollections value (assignNameRule s targets value) targets
  | .dictE _ => assignCollections value (assignNameRule s targets value) targets
  | _ => some (assignNameRule s targets value)

mutual
/-- The `Return` nodes found by `ast.walk` inside a statement, nested
function definitions included (the source scans `ast.walk(node)` without
excluding nested `FunctionDef`s). -/
def stmtReturns : Stmt → List (Option Expr)
  | .assign _ _ => []
  | .exprStmt _ => []
  | .functionDef _ body => stmtsReturns body
  | .ret v => [v]
/-- `ast.walk`-collected `Return` values of a statement list. -/
def stmtsReturns : List Stmt → List (Option Expr)
  | [] => []
  | st :: rest => stmtReturns st ++ stmtsReturns rest
end

/-- The scan in `visit_FunctionDef`: test every collected `Return` value
with `_is_tainted` (a crash in any test aborts), true iff some value is
tainted. -/
def checkReturns (s : AState) : List (Option Expr) → Option Bool
  | [] => some false
  | r :: rest => do
      let b ← _is_taintedOpt s r
      let brest ← checkReturns s rest
      some (b || brest)

/-- The rule block of `TaintAnalyzer.visit_FunctionDef` (before its
`generic_visit`): if any `Return` anywhere inside the body returns a
tainted expression, record the function as taint-propagating. -/
def visit_FunctionDef_rules (s : AState) (fname : String) (body : List Stmt) : Option AState := do
  let b ← checkReturns s (stmtsReturns body)
  some (if b then addFun fname s else s)

mutual
/-- Expression traversal of `TaintAnalyzer`: `visit_Call` fires on every
`Call` node (rule block, then `generic_visit` into `func`, `args` and
keyword values); every other expression kind has no visitor and is only
descended into.  `ctx` carries the parent-assignment targets for the
direct value of an `Assign`, `none` for every other position. -/
def visitExpr (ctx : Option (List Expr)) (s : AState) : Expr → Option AState
  | .name _ => some s
  | .constant _ => some s
  | .attributeE value _ => visitExpr none s value
  | .subscript value slice => do
      let s1 ← visitExpr none s value
      visitExpr none s1 slice
  | .binOp left right => do
      let s1 ← visitExpr none s left
      visitExpr none s1 right
  | .listE elts => visitExprList s elts
  | .dictE pairs => visitPairList s pairs
  | .call func args kws lineno => do
      let s1 ← visit_Call_rules ctx s func args lineno
      let s2 ← visitExpr none s1 func
      let s3 ← visitExprList s2 args
      visitKwList s3 kws
def visitExprList (s : AState) : List Expr → Option AState
  | [] => some s
  | e :: rest => do
      let s1 ← visitExpr none s e
      visitExprList s1 rest
def visitPairList (s : AState) : List (Expr × Expr) → Option AState
  | [] => some s
  | (k, v) :: rest => do
      let s1 ← visitExpr none s k
      let s2 ← visitExpr none s1 v
      visitPairList s2 rest
def visitKwList (s : AState) : List (String × Expr) → Option AState
  | [] => some s
  | (_, v) :: rest => do
      let s1 ← visitExpr none s v
      visitKwList s1 rest
end

mutual
/-- Statement traversal of `TaintAnalyzer`: `visit_Assign`,
`visit_FunctionDef` and `visit_Return` fire on their node kinds (rule
block, then `generic_visit` into the children in field order); an
expression statement only descends into its value. -/
def visitStmt (s : AState) : Stmt → Option AState
  | .assign targets value => do
      let s1 ← visit_Assign_rules s targets value
      let s2 ← visitExprList s1 targets
      visitExpr (some targets) s2 value
  | .exprStmt value => visitExpr none s value
  | .functionDef fname body => do
      let s1 ← visit_FunctionDef_rules s fname body
      visitStmtList s1 body
  | .ret value => do
      let _b ← _is_taintedOpt s value
      match value with
      | some e => visitExpr none s e
      | none => some s
def visitStmtList (s : AState) : List Stmt → Option AState
  | [] => some s
  | st :: rest => do
      let s1 ← visitStmt s st
      visitStmtList s1 rest
end

/-- `TaintAnalyzer().analyze(tree)` on a parsed file: visit the module
(which has no visitor, so `generic_visit` runs the statements in order)
starting from the fresh analyzer state.  `none` models the analysis
raising an exception. -/
def analyzeModule (m : Module) : Option AState := visitStmtList initState m

/-- The state of a `MultiFileTaintAnalyzer`.  `sensitive_sinks` and
`taint_sources` are the aggregator's own configuration fields; note that
`analyze_file` never reads them. -/
structure MultiState where
  tainted_vars : List String
  sensitive_sinks : List String
  taint_sources : List String
  issues : List String
  filewise_taint : List (String × List String)
  deriving DecidableEq

/-- The state of a freshly constructed `MultiFileTaintAnalyzer`, with its
hardcoded sink and source sets (note `os.eval` and `sys.argv`). -/
def initMulti : MultiState :=
  ⟨[], ["eval", "exec", "os.system", "subprocess.run", "os.eval"],
    ["input", "os.environ.get", "sys.argv"], [], []⟩

/-- `self.tainted_vars.update(local.tainted_vars)`: set union, adding the
local elements in order. -/
def unionVars (g l : List String) : List String := l.foldl (fun acc v => addStr v acc) g

/-- `MultiFileTaintAnalyzer.analyze_file`: run a fresh `TaintAnalyzer` on
the file's tree, then fold its variables, issues and per-file record into
the aggregator. -/
def analyze_file (m : MultiState) (file_name : String) (tree : Module) : Option MultiState := do
  let loc ← analyzeModule tree
  some { m with
    tainted_vars := unionVars m.tainted_vars loc.tainted_vars,
    issues := m.issues ++ loc.issues,
    filewise_taint := setKey file_name loc.tainted_vars m.filewise_taint }

/-- `MultiFileTaintAnalyzer.analyze_files`: analyze the files in mapping
order. -/
def analyze_files (m : MultiState) : List (String × Module) → Option MultiState
  | [] => some m
  | (f, t) :: rest => do
      let m1 ← analyze_file m f t
      analyze_files m1 rest

/-- `MultiFileTaintAnalyzer.get_report`: the global tainted variables,
then every issue in recorded order. -/
def get_report (m : MultiState) : String :=
  "\nGlobal Tainted Variables:\n" ++ String.intercalate ", " m.tainted_vars ++
    "\n\nIssues:\n" ++ String.join (m.issues.map (fun i => i ++ "\n"))

/-- The state of one `CallGraphBuilder`. -/
structure CGState where
  call_graph : List (String × List String)
  current_function : Option String
  deriving DecidableEq

/-- `self.call_graph[self.current_function].add(callee)`.  The key is
always present when this runs (`visit_FunctionDef` registers it before
setting `current_function`); the `getD []` branch is unreachable. -/
def addCallee (f callee : String) (g : List (String × List String)) : List (String × List String) :=
  setKey f (addStr callee ((lookupKey f g).getD [])) g

/-- The rule block of `CallGraphBuilder.visit_Call`: inside a function
context, record the identifier of a direct call, or the final attribute
segment of a method-style call; other callee shapes are skipped. -/
def cg_call_rule (s : CGState) (func : Expr) : CGState :=
  match s.current_function with
  | some f =>
      match func with
      | .name id => { s with call_graph := addCallee f id s.call_graph }
      | .attributeE _ attr => { s with call_graph := addCallee f attr s.call_graph }
      | _ => s
  | none => s

mutual
/-- Expression traversal of `CallGraphBuilder`: `visit_Call` fires on
every call (rule block, then `generic_visit`); everything else is only
descended into. -/
def cgVisitExpr (s : CGState) : Expr → CGState
  | .name _ => s
  | .constant _ => s
  | .attributeE value _ => cgVisitExpr s value
  | .subscript value slice => cgVisitExpr (cgVisitExpr s value) slice
  | .binOp left right => cgVisitExpr (cgVisitExpr s left) right
  | .listE elts => cgVisitExprList s elts
  | .dictE pairs => cgVisitPairList s pairs
  | .call func args kws _ =>
      cgVisitKwList (cgVisitExprList (cgVisitExpr (cg_call_rule s func) func) args) kws
def cgVisitExprList (s : CGState) : List Expr → CGState
  | [] => s
  | e :: rest => cgVisitExprList (cgVisitExpr s e) rest
def cgVisitPairList (s : CGState) : List (Expr × Expr) → CGState
  | [] => s
  | (k, v) :: rest => cgVisitPairList (cgVisitExpr (cgVisitExpr s k) v) rest
def cgVisitKwList (s : CGState) : List (String × Expr) → CGState
  | [] => s
  | (_, v) :: rest => cgVisitKwList (cgVisitExpr s v) rest
end

mutual
/-- Statement traversal of `CallGraphBuilder`: `visit_FunctionDef` sets
the current function, registers it if absent, visits the body, and then
resets `current_function` to `None` (not to the enclosing function). -/
def cgVisitStmt (s : CGState) : Stmt → CGState
  | .assign targets value => cgVisitExpr (cgVisitExprList s targets) value
  | .exprStmt value => cgVisitExpr s value
  | .functionDef fname body =>
      let g := if (lookupKey fname s.call_graph).isSome then s.call_graph
               else s.call_graph ++ [(fname, [])]
      let s1 : CGState := ⟨g, some fname⟩
      let s2 := cgVisitStmtList s1 body
      { s2 with current_function := none }
  | .ret value =>
      match value with
      | some e => cgVisitExpr s e
      | none => s
def cgVisitStmtList (s : CGState) : List Stmt → CGState
  | [] => s
  | st :: rest => cgVisitStmtList (cgVisitStmt s st) rest
end

/-- `CallGraphBuilder().visit(tree)` on a parsed file, returning its
`call_graph`. -/
def buildFileGraph (m : Module) : List (String × List String) :=
  (cgVisitStmtList ⟨[], none⟩ m).call_graph

/-- The global call graph: file name to per-file function-to-callees map. -/
abbrev GGraph := List (String × List (String × List String))

/-- The merge loop of `MultiFileCallGraphBuilder.build_call_graph` for one
file: for each function of the per-file graph, ensure the file's entry
exists, then set `global[file_name][function] = calls`. -/
def mergeFuncs (file_name : String) : GGraph → List (String × List String) → GGraph
  | g, [] => g
  | g, (fn, calls) :: rest =>
      let g1 := if (lookupKey file_name g).isSome then g else g ++ [(file_name, [])]
      mergeFuncs file_name
        (setKey file_name (setKey fn calls ((lookupKey file_name g1).getD [])) g1) rest

/-- The file loop of `build_call_graph`, starting from a given global
graph. -/
def build_call_graph_from (g : GGraph) : List (String × Module) → GGraph
  | [] => g
  | (f, tree) :: rest => build_call_graph_from (mergeFuncs f g (buildFileGraph tree)) rest

/-- `MultiFileCallGraphBuilder().build_call_graph(files)`. -/
def build_call_graph (files : List (String × Module)) : GGraph :=
  build_call_graph_from [] files

/-- Membership of a `(file_id, function_name, callee_set)` triple in the
global call graph. -/
def tripleMem (g : GGraph) (file_id fn : String) (calls : List String) : Prop :=
  ∃ inner, lookupKey file_id g = some inner ∧ lookupKey fn inner = some calls

/-! Concrete input programs used by the claims. -/

/-- `x = input()` (line 1) followed by `eval(x)` (line 2). -/
def progC2 : Module :=
  [ .assign [.name "x"] (.call (.name "input") [] [] 1),
    .exprStmt (.call (.name "eval") [.name "x"] [] 2) ]

/-- A bare statement `foo().bar()`: the base of the attribute chain of the
call target is itself a call. -/
def progC1 : Module :=
  [ .exprStmt (.call (.attributeE (.call (.name "foo") [] [] 1) "bar") [] [] 1) ]

/-- `lst = ["safe"]` (line 1) followed by `eval(lst[0])` (line 2): the
collection is recorded with an empty tainted-element set. -/
def progC3 : Module :=
  [ .assign [.name "lst"] (.listE [.constant (.str "safe")]),
    .exprStmt (.call (.name "eval") [.subscript (.name "lst") (.constant (.intV 0))] [] 2) ]

/-- `def outer(): def inner(): helper()` followed by `tail()` still inside
`outer`'s body, after the nested definition. -/
def progC4 : Module :=
  [ .functionDef "outer"
      [ .functionDef "inner" [ .exprStmt (.call (.name "helper") [] [] 3) ],
        .exprStmt (.call (.name "tail") [] [] 4) ] ]

/-- File A of the cross-file scenario: `x = input()` then
`def leak(): return x` — `leak` is recorded as taint-propagating during
A's own pass. -/
def progA : Module :=
  [ .assign [.name "x"] (.call (.name "input") [] [] 1),
    .functionDef "leak" [ .ret (some (.name "x")) ] ]

/-- File B of the cross-file scenario: `x = leak()` then `eval(x)`. -/
def progB : Module :=
  [ .assign [.name "x"] (.call (.name "leak") [] [] 1),
    .exprStmt (.call (.name "eval") [.name "x"] [] 2) ]

/-- `x = input()` then `lst = [x]`: the collection entry for `lst`
records the tainted element `x`. -/
def progC7a : Module :=
  [ .assign [.name "x"] (.call (.name "input") [] [] 1),
    .assign [.name "lst"] (.listE [.name "x"]) ]

/-- The further statement `lst = []`, overwriting the collection entry. -/
def stmtC7 : Stmt := .assign [.name "lst"] (.listE [])

/-! Claim theorems. -/

/-- C1: the claim says name resolution never fails and an unresolvable
base degrades to a partial name.  The code disagrees: `get_name` has no
branch for a base that is not a `Name`/`Attribute`, so it returns `None`,
and `visit_Call` then runs `".".join(name[::-1])`, raising `TypeError`
and aborting the whole analysis.  At the failing input `foo().bar()` the
resolver yields `none` and the analysis of the file crashes (`none`)
instead of producing the partial name `"bar"`. -/
theorem c1_name_resolution_crash :
    get_name (.attributeE (.call (.name "foo") [] [] 1) "bar") [] = none ∧
    analyzeModule progC1 = none := ⟨rfl, rfl⟩

/-- C2: on `x = input()` followed by `eval(x)`, the analysis produces
exactly one issue — the string naming sink `eval` and line 2 (the line of
the `eval` call) — and `x` is in the tainted-variable set. -/
theorem c2_source_sink_minimal :
    analyzeModule progC2 = some ⟨["x"], [], [], [issueString "eval" 2]⟩ := rfl

/-- C3 counterexample: the claim says a subscript on a collection whose
recorded tainted-element set is empty tests untainted.  On
`lst = ["safe"]; eval(lst[0])` the recorded entry for `lst` is the empty
set, yet the subscript tests tainted and the analysis raises an issue:
`_is_tainted` only checks key membership in `tainted_collections`, never
the recorded set. -/
theorem c3_empty_entry_counterexample :
    analyzeModule progC3 = some ⟨[], [("lst", [])], [], [issueString "eval" 2]⟩ := rfl

/-- C4 counterexample: the claim says the outer context is restored after
a nested function definition, so that `tail()`, called in `outer`'s body
after the nested `inner` definition, is attributed to `outer`.  In the
code `visit_FunctionDef` resets `current_function` to `None` instead, so
`outer`'s callee set stays empty and `tail` is attributed to no function
(`helper` is correctly in `inner`'s set only). -/
theorem c4_nested_reset_counterexample :
    buildFileGraph progC4 = [("outer", []), ("inner", ["helper"])] := rfl

/-- C5 counterexample: the claim says that with file A (which establishes
`leak` as taint-propagating — second conjunct) processed first, file B's
`x = leak(); eval(x)` reports an issue through the function-propagation
rule.  It does not: `analyze_file` constructs a fresh `TaintAnalyzer` for
every file, whose `tainted_functions` starts empty, so the whole two-file
run ends with an empty issue list (first conjunct: the final aggregator
state, with no issues and no tainted variable recorded for B). -/
theorem c5_cross_file_counterexample :
    analyze_files initMulti [("A.py", progA), ("B.py", progB)] =
      some ⟨["x"], initMulti.sensitive_sinks, initMulti.taint_sources, [],
            [("A.py", ["x"]), ("B.py", [])]⟩ ∧
    (analyzeModule progA).map AState.tainted_functions = some ["leak"] := ⟨rfl, rfl⟩

/-- C6 counterexample: the claim says every recorded issue is a triple
that contains the file identifier of the file with the sink call.  The
recorded issue is in fact a string holding only the sink name and line:
the same tree analyzed under the distinct file names `A.py` and `B.py`
yields the identical issue, so no file identifier is part of it. -/
theorem c6_no_file_id_counterexample :
    (analyze_files initMulti [("A.py", progC2)]).map MultiState.issues =
      some [issueString "eval" 2] ∧
    (analyze_files initMulti [("B.py", progC2)]).map MultiState.issues =
      some [issueString "eval" 2] := ⟨rfl, rfl⟩

/-- C7 counterexample: the claim says each collection's recorded
tainted-element set never shrinks during a file pass.  After
`x = input(); lst = [x]` the entry for `lst` is `["x"]`; the next
statement `lst = []` of the same traversal overwrites it with the empty
set — the entry shrank. -/
theorem c7_collection_shrink_counterexample :
    visitStmtList initState progC7a = some ⟨["x"], [("lst", ["x"])], [], []⟩ ∧
    visitStmt ⟨["x"], [("lst", ["x"])], [], []⟩ stmtC7 =
      some ⟨["x"], [("lst", [])], [], []⟩ ∧
    ¬ (["x"] : List String) ⊆ ([] : List String) := ⟨rfl, rfl, by simp⟩

/-! Monotonicity of the taint state along a traversal.  `Extends s t`
says `t` is reachable from `s` by additions only: the tainted-variable
and tainted-function sets grow, and the issue list is extended by issue
strings of the sink rule's shape. -/

/-- An issue string as produced by the sink rule: sink name and line. -/
def IssueShaped (x : String) : Prop :=
  ∃ cn ln, cn ∈ sensitive_sinks ∧ x = issueString cn ln

/-- `t` extends `s`: no tainted variable or tainted function is dropped,
and the issue list only grows, by sink-shaped strings. -/
def Extends (s t : AState) : Prop :=
  s.tainted_vars ⊆ t.tainted_vars ∧ s.tainted_functions ⊆ t.tainted_functions ∧
  ∃ nw, t.issues = s.issues ++ nw ∧ ∀ x ∈ nw, IssueShaped x

theorem extends_refl (s : AState) : Extends s s :=
  ⟨fun _ h => h, fun _ h => h, [], by simp, by simp⟩

theorem extends_trans {s t u : AState} (h1 : Extends s t) (h2 : Extends t u) : Extends s u := by
  obtain ⟨v1, f1, n1, e1, w1⟩ := h1
  obtain ⟨v2, f2, n2, e2, w2⟩ := h2
  refine ⟨fun x hx => v2 (v1 hx), fun x hx => f2 (f1 hx), n1 ++ n2, ?_, ?_⟩
  · rw [e2, e1, List.append_assoc]
  · intro x hx
    rcases List.mem_append.mp hx with h | h
    · exact w1 x h
    · exact w2 x h

theorem subset_addStr (v : String) (l : List String) : l ⊆ addStr v l := by
  unfold addStr
  split
  · exact fun _ h => h
  · exact fun x hx => List.mem_append_left _ hx

theorem extends_addVar (v : String) (s : AState) : Extends s (addVar v s) :=
  ⟨subset_addStr v s.tainted_vars, fun _ h => h, [], by simp [addVar], by simp⟩

theorem extends_addFun (f : String) (s : AState) : Extends s (addFun f s) :=
  ⟨fun _ h => h, subset_addStr f s.tainted_functions, [], by simp [addFun], by simp⟩

theorem extends_addTargets (ts : List Expr) : ∀ s : AState, Extends s (addTargets s ts) := by
  induction ts with
  | nil => exact fun s => extends_refl s
  | cons t rest ih =>
      intro s
      cases t
      case name id => exact extends_trans (extends_addVar id s) (ih (addVar id s))
      all_goals exact ih s

theorem extends_issue (s : AState) (cn : String) (ln : Nat) (hcn : cn ∈ sensitive_sinks) :
    Extends s { s with issues := s.issues ++ [issueString cn ln] } :=
  ⟨fun _ h => h, fun _ h => h, [issueString cn ln], rfl, by
    intro x hx
    rcases List.mem_singleton.mp hx with h
    exact ⟨cn, ln, hcn, h⟩⟩

theorem extends_collections (s : AState) (c : List (String × List String)) :
    Extends s { s with tainted_collections := c } :=
  ⟨fun _ h => h, fun _ h => h, [], by simp, by simp⟩

theorem sinkCheck_extends (cn : String) (ln : Nat) (hcn : cn ∈ sensitive_sinks) :
    ∀ (args : List Expr) (s t : AState), sinkCheck cn ln s args = some t → Extends s t := by
  intro args
  induction args with
  | nil =>
      intro s t h
      rw [sinkCheck] at h
      cases h
      exact extends_refl s
  | cons arg rest ih =>
      intro s t h
      rw [sinkCheck] at h
      rcases hb : _is_tainted s arg with _ | b
      · rw [hb] at h; exact Option.noConfusion h
      · rw [hb] at h
        cases b with
        | true => exact extends_trans (extends_issue s cn ln hcn) (ih _ t h)
        | false => exact ih s t h

theorem assignCollections_extends (value : Expr) :
    ∀ (ts : List Expr) (s t : AState), assignCollections value s ts = some t → Extends s t := by
  intro ts
  induction ts with
  | nil =>
      intro s t h
      rw [assignCollections] at h
      cases h
      exact extends_refl s
  | cons tg rest ih =>
      intro s t h
      cases tg
      case name id =>
        rw [assignCollections] at h
        rcases he : _extract_tainted_elements s value with _ | els
        · rw [he] at h; exact Option.noConfusion h
        · rw [he] at h
          exact extends_trans (extends_collections s _) (ih _ t h)
      all_goals exact ih s t h

theorem sourceRule_extends (callname : String) (ctx : Option (List Expr)) (s : AState) :
    Extends s (sourceRule callname ctx s) := by
  unfold sourceRule
  split
  · cases ctx with
    | some targets => exact extends_addTargets targets s
    | none => exact extends_refl s
  · exact extends_refl s

theorem sinkRule_extends (callname : String) (ln : Nat) (args : List Expr) (s t : AState)
    (h : sinkRule callname ln args s = some t) : Extends s t := by
  unfold sinkRule at h
  split at h
  · exact sinkCheck_extends callname ln (by assumption) args s t h
  · cases h; exact extends_refl s

theorem propagationRule_extends (callname : String) (ctx : Option (List Expr)) (s : AState) :
    Extends s (propagationRule callname ctx s) := by
  unfold propagationRule
  split
  · cases ctx with
    | some targets => exact extends_addTargets targets s
    | none => exact extends_refl s
  · exact extends_refl s

theorem visit_Call_rules_extends (ctx : Option (List Expr)) (s : AState) (func : Expr)
    (args : List Expr) (ln : Nat) (t : AState)
    (h : visit_Call_rules ctx s func args ln = some t) : Extends s t := by
  rw [visit_Call_rules] at h
  simp only [Option.bind_eq_some, Option.bind_eq_bind] at h
  obtain ⟨nm, hnm, s2, hs2, h⟩ := h
  cases h
  exact extends_trans (sourceRule_extends (dotted nm) ctx s)
    (extends_trans (sinkRule_extends (dotted nm) ln args _ s2 hs2)
      (propagationRule_extends (dotted nm) ctx s2))

theorem assignNameRule_extends (s : AState) (targets : List Expr) (value : Expr) :
    Extends s (assignNameRule s targets value) := by
  unfold assignNameRule
  split
  · split
    · exact extends_addTargets targets s
    · exact extends_refl s
  · exact extends_refl s

theorem visit_Assign_rules_extends (s : AState) (targets : List Expr) (value : Expr)
    (t : AState) (h : visit_Assign_rules s targets value = some t) : Extends s t := by
  have e1 := assignNameRule_extends s targets value
  cases value
  case listE es => exact extends_trans e1 (assignCollections_extends _ targets _ t h)
  case dictE ps => exact extends_trans e1 (assignCollections_extends _ targets _ t h)
  all_goals exact (Option.some.inj h : assignNameRule s targets _ = t) ▸ e1

theorem visit_FunctionDef_rules_extends (s : AState) (fname : String) (body : List Stmt)
    (t : AState) (h : visit_FunctionDef_rules s fname body = some t) : Extends s t := by
  rw [visit_FunctionDef_rules] at h
  rcases hb : checkReturns s (stmtsReturns body) with _ | b
  · rw [hb] at h; exact Option.noConfusion h
  · rw [hb] at h
    cases h
    cases b with
    | true => exact extends_addFun fname s
    | false => exact extends_refl s

mutual
theorem visitExpr_extends (ctx : Option (List Expr)) (s : AState) (e : Expr) (t : AState)
    (h : visitExpr ctx s e = some t) : Extends s t := by
  cases e with
  | name id =>
      rw [visitExpr] at h; cases h; exact extends_refl s
  | constant c =>
      rw [visitExpr] at h; cases h; exact extends_refl s
  | attributeE value attr =>
      rw [visitExpr] at h
      exact visitExpr_extends none s value t h
  | subscript value slice =>
      rw [visitExpr] at h
      simp only [Option.bind_eq_some, Option.bind_eq_bind] at h
      obtain ⟨s1, h1, h2⟩ := h
      exact extends_trans (visitExpr_extends none s value s1 h1)
        (visitExpr_extends none s1 slice t h2)
  | binOp left right =>
      rw [visitExpr] at h
      simp only [Option.bind_eq_some, Option.bind_eq_bind] at h
      obtain ⟨s1, h1, h2⟩ := h
      exact extends_trans (visitExpr_extends none s left s1 h1)
        (visitExpr_extends none s1 right t h2)
  | listE elts =>
      rw [visitExpr] at h
      exact visitExprList_extends s elts t h
  | dictE pairs =>
      rw [visitExpr] at h
      exact visitPairList_extends s pairs t h
  | call func args kws ln =>
      rw [visitExpr] at h
      simp only [Option.bind_eq_some, Option.bind_eq_bind] at h
      obtain ⟨s1, h1, s2, h2, s3, h3, h4⟩ := h
      exact extends_trans (visit_Call_rules_extends ctx s func args ln s1 h1)
        (extends_trans (visitExpr_extends none s1 func s2 h2)
          (extends_trans (visitExprList_extends s2 args s3 h3)
            (visitKwList_extends s3 kws t h4)))
theorem visitExprList_extends (s : AState) (es : List Expr) (t : AState)
    (h : visitExprList s es = some t) : Extends s t := by
  cases es with
  | nil => rw [visitExprList] at h; cases h; exact extends_refl s
  | cons e rest =>
      rw [visitExprList] at h
      simp only [Option.bind_eq_some, Option.bind_eq_bind] at h
      obtain ⟨s1, h1, h2⟩ := h
      exact extends_trans (visitExpr_extends none s e s1 h1)
        (visitExprList_extends s1 rest t h2)
theorem visitPairList_extends (s : AState) (ps : List (Expr × Expr)) (t : AState)
    (h : visitPairList s ps = some t) : Extends s t := by
  cases ps with
  | nil => rw [visitPairList] at h; cases h; exact extends_refl s
  | cons p rest =>
      obtain ⟨k, v⟩ := p
      rw [visitPairList] at h
      simp only [Option.bind_eq_some, Option.bind_eq_bind] at h
      obtain ⟨s1, h1, s2, h2, h3⟩ := h
      exact extends_trans (visitExpr_extends none s k s1 h1)
        (extends_trans (visitExpr_extends none s1 v s2 h2)
          (visitPairList_extends s2 rest t h3))
theorem visitKwList_extends (s : AState) (kws : List (String × Expr)) (t : AState)
    (h : visitKwList s kws = some t) : Extends s t := by
  cases kws with
  | nil => rw [visitKwList] at h; cases h; exact extends_refl s
  | cons kv rest =>
      obtain ⟨k, v⟩ := kv
      rw [visitKwList] at h
      simp only [Option.bind_eq_some, Option.bind_eq_bind] at h
      obtain ⟨s1, h1, h2⟩ := h
      exact extends_trans (visitExpr_extends none s v s1 h1)
        (visitKwList_extends s1 rest t h2)
end

mutual
theorem visitStmt_extends (s : AState) (st : Stmt) (t : AState)
    (h : visitStmt s st = some t) : Extends s t := by
  cases st with
  | assign targets value =>
      rw [visitStmt] at h
      simp only [Option.bind_eq_some, Option.bind_eq_bind] at h
      obtain ⟨s1, h1, s2, h2, h3⟩ := h
      exact extends_trans (visit_Assign_rules_extends s targets value s1 h1)
        (extends_trans (visitExprList_extends s1 targets s2 h2)
          (visitExpr_extends (some targets) s2 value t h3))
  | exprStmt value =>
      rw [visitStmt] at h
      exact visitExpr_extends none s value t h
  | functionDef fname body =>
      rw [visitStmt] at h
      simp only [Option.bind_eq_some, Option.bind_eq_bind] at h
      obtain ⟨s1, h1, h2⟩ := h
      exact extends_trans (visit_FunctionDef_rules_extends s fname body s1 h1)
        (visitStmtList_extends s1 body t h2)
  | ret value =>
      cases value with
      | some e =>
          rw [visitStmt] at h
          simp only [Option.bind_eq_some, Option.bind_eq_bind] at h
          obtain ⟨b, hb, h2⟩ := h
          exact visitExpr_extends none s e t h2
      | none =>
          rw [visitStmt] at h
          simp only [Option.bind_eq_some, Option.bind_eq_bind] at h
          obtain ⟨b, hb, h2⟩ := h
          cases h2
          exact extends_refl s
theorem visitStmtList_extends (s : AState) (sts : List Stmt) (t : AState)
    (h : visitStmtList s sts = some t) : Extends s t := by
  cases sts with
  | nil => rw [visitStmtList] at h; cases h; exact extends_refl s
  | cons st rest =>
      rw [visitStmtList] at h
      simp only [Option.bind_eq_some, Option.bind_eq_bind] at h
      obtain ⟨s1, h1, h2⟩ := h
      exact extends_trans (visitStmt_extends s st s1 h1)
        (visitStmtList_extends s1 rest t h2)
end

/-- C7 (amended): within a single file pass the tainted-variable set and
the tainted-function set are mutated monotonically — starting the
traversal of any statement sequence from any intermediate state `s`,
every state `t` the traversal reaches extends `s`: no tainted variable
and no tainted function is ever removed.  (The collections-taint table is
excluded: its entries are overwritten on reassignment and may shrink, see
the counterexample.) -/
theorem c7_monotonic (sts : List Stmt) (s t : AState)
    (h : visitStmtList s sts = some t) :
    s.tainted_vars ⊆ t.tainted_vars ∧ s.tainted_functions ⊆ t.tainted_functions :=
  ⟨(visitStmtList_extends s sts t h).1, (visitStmtList_extends s sts t h).2.1⟩

/-- C7 witness: the monotonicity theorem applied to the concrete program
`x = input(); eval(x)` starting from the fresh state. -/
theorem c7_monotonic_witness :
    initState.tainted_vars ⊆ (["x"] : List String) ∧
    initState.tainted_functions ⊆ ([] : List String) :=
  c7_monotonic progC2 initState ⟨["x"], [], [], [issueString "eval" 2]⟩ rfl

/-- Every issue held by a `MultiFileTaintAnalyzer` state whose own issue
list started well-shaped remains a sink-shaped string after analyzing any
list of files. -/
theorem analyze_files_issue_shape (files : List (String × Module)) :
    ∀ (m0 m : MultiState), analyze_files m0 files = some m →
    (∀ x ∈ m0.issues, IssueShaped x) → ∀ x ∈ m.issues, IssueShaped x := by
  induction files with
  | nil =>
      intro m0 m h h0
      rw [analyze_files] at h
      cases h
      exact h0
  | cons ft rest ih =>
      obtain ⟨f, tree⟩ := ft
      intro m0 m h h0
      rw [analyze_files] at h
      simp only [Option.bind_eq_some, Option.bind_eq_bind] at h
      obtain ⟨m1, h1, h2⟩ := h
      rw [analyze_file] at h1
      simp only [Option.bind_eq_some, Option.bind_eq_bind] at h1
      obtain ⟨loc, hloc, h1⟩ := h1
      cases h1
      refine ih _ m h2 ?_
      intro x hx
      rcases List.mem_append.mp hx with hx0 | hxl
      · exact h0 x hx0
      · obtain ⟨-, -, nw, he, hw⟩ := visitStmtList_extends initState tree loc hloc
        rw [he] at hxl
        exact hw x (by simpa [initState] using hxl)

/-- C6 (amended): every recorded issue is a string carrying the sink name
and the source line number of the sink call (the exact string built by
the sink rule); the file identifier is not part of an issue, and the
report presents the issue list as these strings. -/
theorem c6_issue_shape (files : List (String × Module)) (m : MultiState)
    (h : analyze_files initMulti files = some m) :
    ∀ x ∈ m.issues, IssueShaped x :=
  analyze_files_issue_shape files initMulti m h (by intro x hx; simp [initMulti] at hx)

/-- C6 witness: the shape theorem applied to the single-file run of
`x = input(); eval(x)` under the file name `A.py`, at its one issue. -/
theorem c6_issue_shape_witness : IssueShaped (issueString "eval" 2) :=
  c6_issue_shape [("A.py", progC2)]
    ⟨["x"], initMulti.sensitive_sinks, initMulti.taint_sources,
      [issueString "eval" 2], [("A.py", ["x"])]⟩ rfl
    (issueString "eval" 2) (by simp)

/-- With no enclosing `Assign` parent, the function-propagation rule of
`visit_Call` changes nothing (both branches of its guard return the state
unchanged). -/
theorem propagationRule_none (cn : String) (s : AState) : propagationRule cn none s = s := by
  unfold propagationRule
  split <;> rfl

/-- C3 (amended): the taint-test judges a subscript access on a
simple-identifier base tainted iff that base identifier has an entry —
empty or not — in the collections-taint table (`_is_tainted` tests key
membership only, never the recorded element set); consequently an `eval`
call on such a subscript raises an issue exactly when the base has an
entry, regardless of the index. -/
theorem c3_subscript_key_membership (s : AState) (v : String) (idx : Expr) (c : CVal) (ln : Nat) :
    _is_tainted s (.subscript (.name v) idx) =
      some ((lookupKey v s.tainted_collections).isSome) ∧
    visitExpr none s (.call (.name "eval") [.subscript (.name v) (.constant c)] [] ln) =
      some (if (lookupKey v s.tainted_collections).isSome
            then { s with issues := s.issues ++ [issueString "eval" ln] } else s) := by
  constructor
  · rfl
  · have key : visitExpr none s
        (.call (.name "eval") [.subscript (.name v) (.constant c)] [] ln) =
        some (propagationRule "eval" none
          (if (lookupKey v s.tainted_collections).isSome
           then { s with issues := s.issues ++ [issueString "eval" ln] } else s)) := rfl
    rw [key, propagationRule_none]

/-- C4 (amended): in the call-graph builder a nested function definition
re-binds the context to the inner function for the duration of its body,
but afterwards the context is reset to no function (`None`) rather than
restored to the outer one: `helper` lands in `inner`'s callee set and not
in `outer`'s, while calls in `outer`'s body after the nested definition
(here `tail()`) are attributed to no function at all — `outer`'s callee
set stays empty and `tail` appears nowhere. -/
theorem c4_nested_context_amended (outerN innerN helperN tailN : String)
    (hne : innerN ≠ outerN) :
    buildFileGraph
      [ .functionDef outerN
          [ .functionDef innerN [ .exprStmt (.call (.name helperN) [] [] 3) ],
            .exprStmt (.call (.name tailN) [] [] 4) ] ] =
      [(outerN, []), (innerN, [helperN])] := by
  have hne2 : outerN ≠ innerN := Ne.symm hne
  simp [buildFileGraph, cgVisitStmtList, cgVisitStmt, cgVisitExpr, cgVisitExprList,
        cgVisitKwList, cg_call_rule, addCallee, lookupKey, setKey, addStr, hne2]

/-- C4 witness: the amended nesting theorem at the concrete names of the
example program. -/
theorem c4_nested_context_witness :
    buildFileGraph progC4 = [("outer", []), ("inner", ["helper"])] :=
  c4_nested_context_amended "outer" "inner" "helper" "tail" (by decide)

/-- The concatenation of the issue lists each file produces when analyzed
in isolation by a fresh `TaintAnalyzer`. -/
def localIssues : List (String × Module) → List String
  | [] => []
  | (_, tree) :: rest => ((analyzeModule tree).map AState.issues).getD [] ++ localIssues rest

/-- C5 (amended): function-taint never carries across files — every file
is analyzed by a fresh `TaintAnalyzer`, so the aggregated issue list is
exactly the initial one followed by the issues each file produces in
isolation, whatever the processing order; in particular file B of the
`leak` scenario reports nothing even when file A is processed first. -/
theorem c5_file_independence (files : List (String × Module)) :
    ∀ (m0 m : MultiState), analyze_files m0 files = some m →
    m.issues = m0.issues ++ localIssues files := by
  induction files with
  | nil =>
      intro m0 m h
      rw [analyze_files] at h
      cases h
      simp [localIssues]
  | cons ft rest ih =>
      obtain ⟨f, tree⟩ := ft
      intro m0 m h
      rw [analyze_files] at h
      simp only [Option.bind_eq_some, Option.bind_eq_bind] at h
      obtain ⟨m1, h1, h2⟩ := h
      rw [analyze_file] at h1
      simp only [Option.bind_eq_some, Option.bind_eq_bind] at h1
      obtain ⟨loc, hloc, h1⟩ := h1
      cases h1
      rw [ih _ m h2]
      simp [localIssues, hloc, List.append_assoc]

/-- C5 witness: the independence theorem applied to the concrete
two-file `leak` scenario with file A first. -/
theorem c5_file_independence_witness :
    (⟨["x"], initMulti.sensitive_sinks, initMulti.taint_sources, [],
       [("A.py", ["x"]), ("B.py", [])]⟩ : MultiState).issues =
      initMulti.issues ++ localIssues [("A.py", progA), ("B.py", progB)] :=
  c5_file_independence [("A.py", progA), ("B.py", progB)] initMulti _ rfl

/-- C9: the sink rule inspects only the positional arguments of a sink
call.  A tainted value passed as a keyword argument to `eval` leaves the
analyzer state untouched — no issue — while the same value passed
positionally produces exactly one issue. -/
theorem c9_keyword_args_ignored (s : AState) (v k : String) (ln : Nat)
    (h : v ∈ s.tainted_vars) :
    visitExpr none s (.call (.name "eval") [] [(k, .name v)] ln) = some s ∧
    visitExpr none s (.call (.name "eval") [.name v] [] ln) =
      some { s with issues := s.issues ++ [issueString "eval" ln] } := by
  constructor
  · have key : visitExpr none s (.call (.name "eval") [] [(k, .name v)] ln) =
        some (propagationRule "eval" none s) := rfl
    rw [key, propagationRule_none]
  · have key : visitExpr none s (.call (.name "eval") [.name v] [] ln) =
        some (propagationRule "eval" none
          (if decide (v ∈ s.tainted_vars) = true
           then { s with issues := s.issues ++ [issueString "eval" ln] } else s)) := rfl
    rw [key, propagationRule_none, if_pos (decide_eq_true h)]

/-- C9 witness: the keyword-argument theorem at a concrete state in which
`x` is tainted, with keyword name `code` and line 1. -/
theorem c9_keyword_args_witness :
    visitExpr none ⟨["x"], [], [], []⟩ (.call (.name "eval") [] [("code", .name "x")] 1) =
      some ⟨["x"], [], [], []⟩ ∧
    visitExpr none ⟨["x"], [], [], []⟩ (.call (.name "eval") [.name "x"] [] 1) =
      some ⟨["x"], [], [], [issueString "eval" 1]⟩ :=
  c9_keyword_args_ignored ⟨["x"], [], [], []⟩ "x" "code" 1 (by simp)

/-- C10: the `MultiFileTaintAnalyzer`'s own `sensitive_sinks` and
`taint_sources` fields are never consulted: two aggregator states that
agree on everything except those two fields produce, on any file list,
the same tainted variables, issues, per-file taint map and report text
(each per-file pass uses only the fresh `TaintAnalyzer`'s hardcoded
sets). -/
theorem c10_aggregator_config_unused (m1 m2 : MultiState)
    (hv : m1.tainted_vars = m2.tainted_vars) (hi : m1.issues = m2.issues)
    (hf : m1.filewise_taint = m2.filewise_taint) (files : List (String × Module)) :
    (analyze_files m1 files).map
      (fun m => (m.tainted_vars, m.issues, m.filewise_taint, get_report m)) =
    (analyze_files m2 files).map
      (fun m => (m.tainted_vars, m.issues, m.filewise_taint, get_report m)) := by
  induction files generalizing m1 m2 with
  | nil => simp [analyze_files, get_report, hv, hi, hf]
  | cons ft rest ih =>
      obtain ⟨f, tree⟩ := ft
      simp only [analyze_files]
      rw [analyze_file, analyze_file]
      rcases hloc : analyzeModule tree with _ | loc
      · rfl
      · exact ih _ _ (by rw [hv]) (by rw [hi]) (by rw [hf])

/-- C10 witness: the configuration-independence theorem applied to the
default aggregator and one whose sink and source fields are replaced
wholesale, on the single-file run of `x = input(); eval(x)`. -/
theorem c10_aggregator_config_witness :
    (analyze_files initMulti [("f.py", progC2)]).map
      (fun m => (m.tainted_vars, m.issues, m.filewise_taint, get_report m)) =
    (analyze_files { initMulti with sensitive_sinks := [], taint_sources := ["custom.source"] }
        [("f.py", progC2)]).map
      (fun m => (m.tainted_vars, m.issues, m.filewise_taint, get_report m)) :=
  c10_aggregator_config_unused initMulti
    { initMulti with sensitive_sinks := [], taint_sources := ["custom.source"] }
    rfl rfl rfl [("f.py", progC2)]

/-! Association-list lemmas for the call-graph merge (C8). -/

theorem lookupKey_eq_none {β : Type} (k : String) (l : List (String × β))
    (h : k ∉ keysOf l) : lookupKey k l = none := by
  induction l with
  | nil => rfl
  | cons p rest ih =>
      obtain ⟨k2, v⟩ := p
      simp only [keysOf, List.map_cons, List.mem_cons, not_or] at h
      rw [lookupKey, if_neg (fun he => h.1 he.symm)]
      exact ih (by simpa [keysOf] using h.2)

theorem lookupKey_append_right {β : Type} (k : String) (l l2 : List (String × β))
    (h : k ∉ keysOf l) : lookupKey k (l ++ l2) = lookupKey k l2 := by
  induction l with
  | nil => rfl
  | cons p rest ih =>
      obtain ⟨k2, v⟩ := p
      simp only [keysOf, List.map_cons, List.mem_cons, not_or] at h
      rw [List.cons_append, lookupKey, if_neg (fun he => h.1 he.symm)]
      exact ih (by simpa [keysOf] using h.2)

theorem lookupKey_append_self {β : Type} (k : String) (v : β) (l : List (String × β))
    (h : k ∉ keysOf l) : lookupKey k (l ++ [(k, v)]) = some v := by
  rw [lookupKey_append_right k l _ h, lookupKey, if_pos rfl]

theorem setKey_append {β : Type} (k : String) (v w : β) (l : List (String × β))
    (h : k ∉ keysOf l) : setKey k v (l ++ [(k, w)]) = l ++ [(k, v)] := by
  induction l with
  | nil => simp [setKey]
  | cons p rest ih =>
      obtain ⟨k2, v2⟩ := p
      simp only [keysOf, List.map_cons, List.mem_cons, not_or] at h
      rw [List.cons_append, setKey, if_neg (fun he => h.1 he.symm), List.cons_append]
      rw [ih (by simpa [keysOf] using h.2)]

/-- The inner per-file dictionary as rebuilt by the merge loop, starting
from a given dictionary. -/
def innerFrom (d : List (String × List String)) : List (String × List String) →
    List (String × List String)
  | [] => d
  | (fn, calls) :: rest => innerFrom (setKey fn calls d) rest

/-- The inner per-file dictionary the merge loop builds from scratch. -/
def innerOf (fg : List (String × List String)) : List (String × List String) :=
  innerFrom [] fg

theorem mergeFuncs_present (file_name : String) (g : GGraph)
    (hg : file_name ∉ keysOf g) :
    ∀ (fg : List (String × List String)) (d : List (String × List String)),
    mergeFuncs file_name (g ++ [(file_name, d)]) fg = g ++ [(file_name, innerFrom d fg)] := by
  intro fg
  induction fg with
  | nil => intro d; rfl
  | cons p rest ih =>
      obtain ⟨fn, calls⟩ := p
      intro d
      rw [mergeFuncs]
      simp only [lookupKey_append_self file_name d g hg, Option.isSome_some, if_true,
        Option.getD_some]
      rw [setKey_append file_name (setKey fn calls d) d g hg]
      exact ih (setKey fn calls d)

theorem mergeFuncs_fresh_cons (file_name : String) (g : GGraph)
    (hg : file_name ∉ keysOf g) (fn : String) (calls : List String)
    (rest : List (String × List String)) :
    mergeFuncs file_name g ((fn, calls) :: rest) =
      g ++ [(file_name, innerOf ((fn, calls) :: rest))] := by
  rw [mergeFuncs]
  rw [lookupKey_eq_none file_name g hg]
  simp only [Option.isSome_none, Bool.false_eq_true, if_false]
  rw [lookupKey_append_self file_name [] g hg]
  simp only [Option.getD_some]
  rw [setKey_append file_name (setKey fn calls []) [] g hg]
  exact mergeFuncs_present file_name g hg rest (setKey fn calls [])

/-- The normal form of the global call graph on distinct file names: one
entry per file with a nonempty per-file graph, in processing order. -/
def canonicalGG : List (String × Module) → GGraph
  | [] => []
  | (f, tree) :: rest =>
      if buildFileGraph tree = [] then canonicalGG rest
      else (f, innerOf (buildFileGraph tree)) :: canonicalGG rest

theorem keysOf_canonical_subset (k : String) :
    ∀ files : List (String × Module), k ∉ keysOf files → k ∉ keysOf (canonicalGG files) := by
  intro files
  induction files with
  | nil => intro h; simp [canonicalGG, keysOf]
  | cons p rest ih =>
      obtain ⟨f, tree⟩ := p
      intro h
      simp only [keysOf, List.map_cons, List.mem_cons, not_or] at h
      rw [canonicalGG]
      split
      · exact ih (by simpa [keysOf] using h.2)
      · simp only [keysOf, List.map_cons, List.mem_cons, not_or]
        exact ⟨h.1, by simpa [keysOf] using ih (by simpa [keysOf] using h.2)⟩

theorem build_from_canonical :
    ∀ (files : List (String × Module)) (g : GGraph),
    (∀ f ∈ keysOf files, f ∉ keysOf g) → (keysOf files).Nodup →
    build_call_graph_from g files = g ++ canonicalGG files := by
  intro files
  induction files with
  | nil => intro g _ _; simp [build_call_graph_from, canonicalGG]
  | cons p rest ih =>
      obtain ⟨f, tree⟩ := p
      intro g hdisj hnd
      have hf : f ∉ keysOf g := hdisj f (by simp [keysOf])
      simp only [keysOf, List.map_cons, List.nodup_cons] at hnd
      rw [build_call_graph_from]
      rcases hfg : buildFileGraph tree with _ | ⟨q, fgrest⟩
      · rw [canonicalGG, if_pos hfg]
        rw [show mergeFuncs f g [] = g from rfl]
        exact ih g (fun f2 hf2 => hdisj f2 (by simp [keysOf] at hf2 ⊢; exact Or.inr hf2)) hnd.2
      · obtain ⟨fn, calls⟩ := q
        rw [mergeFuncs_fresh_cons f g hf fn calls fgrest]
        rw [canonicalGG, if_neg (by rw [hfg]; simp), hfg]
        rw [ih (g ++ [(f, innerOf ((fn, calls) :: fgrest))]) ?_ hnd.2]
        · rw [List.append_assoc, List.singleton_append]
        · intro f2 hf2
          have h1 : f2 ∉ keysOf g := hdisj f2 (by simp [keysOf] at hf2 ⊢; exact Or.inr hf2)
          have h2 : f2 ≠ f := by
            intro he
            exact hnd.1 (he ▸ (by simpa [keysOf] using hf2))
          simp only [keysOf, List.map_append, List.map_cons, List.map_nil, List.mem_append,
            List.mem_singleton, not_or]
          exact ⟨by simpa [keysOf] using h1, h2⟩

theorem lookup_canonical :
    ∀ files : List (String × Module), (keysOf files).Nodup → ∀ f : String,
    lookupKey f (canonicalGG files) =
      (lookupKey f files).bind (fun tree =>
        if buildFileGraph tree = [] then none else some (innerOf (buildFileGraph tree))) := by
  intro files
  induction files with
  | nil => intro _ f; rfl
  | cons p rest ih =>
      obtain ⟨f1, tree1⟩ := p
      intro hnd f
      simp only [keysOf, List.map_cons, List.nodup_cons] at hnd
      by_cases hef : f1 = f
      · subst hef
        rw [lookupKey, if_pos rfl, canonicalGG]
        split
        · rename_i hfg
          rw [lookupKey_eq_none f1 _ (keysOf_canonical_subset f1 rest
              (by simpa [keysOf] using hnd.1))]
          simp [hfg]
        · rename_i hfg
          rw [lookupKey, if_pos rfl]
          simp [hfg]
      · rw [lookupKey, if_neg hef, canonicalGG]
        split
        · exact ih hnd.2 f
        · rw [lookupKey, if_neg hef]
          exact ih hnd.2 f

theorem lookupKey_perm {β : Type} {l1 l2 : List (String × β)} (hp : l1.Perm l2)
    (hnd : (keysOf l1).Nodup) (k : String) : lookupKey k l1 = lookupKey k l2 := by
  induction hp with
  | nil => rfl
  | cons x hp ih =>
      obtain ⟨k1, v1⟩ := x
      simp only [keysOf, List.map_cons, List.nodup_cons] at hnd
      rw [lookupKey, lookupKey]
      split
      · rfl
      · exact ih (by simpa [keysOf] using hnd.2)
  | swap x y l =>
      obtain ⟨k1, v1⟩ := x
      obtain ⟨k2, v2⟩ := y
      simp only [keysOf, List.map_cons, List.nodup_cons, List.mem_cons, not_or] at hnd
      have hne : k2 ≠ k1 := hnd.1.1
      by_cases h1 : k1 = k
      · by_cases h2 : k2 = k
        · exact absurd (h2.trans h1.symm) hne
        · simp [lookupKey, h1, h2]
      · by_cases h2 : k2 = k
        · simp [lookupKey, h1, h2]
        · simp [lookupKey, h1, h2]
  | trans hp1 hp2 ih1 ih2 =>
      have hnd2 := ((hp1.map Prod.fst).nodup_iff).mp hnd
      exact (ih1 hnd).trans (ih2 hnd2)

/-- C8: the global call graph's content, viewed as the set of
`(file_id, function_name, callee_set)` triples, does not depend on the
order in which the files are processed: for any two permutations of the
same file list (with the distinct file names a mapping guarantees), the
same triples are members of the resulting graph. -/
theorem c8_merge_commutative (l1 l2 : List (String × Module)) (hp : l1.Perm l2)
    (hnd : (keysOf l1).Nodup) (f fn : String) (calls : List String) :
    tripleMem (build_call_graph l1) f fn calls ↔
    tripleMem (build_call_graph l2) f fn calls := by
  have hnd2 : (keysOf l2).Nodup := ((hp.map Prod.fst).nodup_iff).mp hnd
  have e1 : build_call_graph l1 = canonicalGG l1 := by
    have h := build_from_canonical l1 [] (by intro f2 _; simp [keysOf]) hnd
    simpa [build_call_graph] using h
  have e2 : build_call_graph l2 = canonicalGG l2 := by
    have h := build_from_canonical l2 [] (by intro f2 _; simp [keysOf]) hnd2
    simpa [build_call_graph] using h
  rw [tripleMem, tripleMem, e1, e2, lookup_canonical l1 hnd f, lookup_canonical l2 hnd2 f,
    lookupKey_perm hp hnd f]

/-- Two single-function files used by the C8 witness. -/
def progC8a : Module := [ .functionDef "f" [ .exprStmt (.call (.name "g") [] [] 2) ] ]

/-- Second file of the C8 witness. -/
def progC8b : Module := [ .functionDef "h" [] ]

/-- C8 witness: the commutativity theorem applied to two concrete files
merged in both orders, at the triple of the first file. -/
theorem c8_merge_commutative_witness :
    tripleMem (build_call_graph [("a.py", progC8a), ("b.py", progC8b)]) "a.py" "f" ["g"] ↔
    tripleMem (build_call_graph [("b.py", progC8b), ("a.py", progC8a)]) "a.py" "f" ["g"] :=
  c8_merge_commutative [("a.py", progC8a), ("b.py", progC8b)]
    [("b.py", progC8b), ("a.py", progC8a)]
    (List.Perm.swap ("b.py", progC8b) ("a.py", progC8a) [])
    (by simp [keysOf]) "a.py" "f" ["g"]

end Py
